import Mathlib

/-!
Verification of the adaptive chunking / rate-budget / hierarchical-merge
pipeline of the WhatsApp group-summarizer repository.

Each definition below is a shallow embedding of one function of the source:
  - WhatsAppMessage, estimateTokens, chunkMessages, formatChunkForAI
    from src/src/services/chunker.ts
  - parseTime, groupIntoBlocks, smartSample, mergeSummaries, processFull
    from src/unnamed/part_000 (public app script)
  - updateTokensUsed, getAvailableTokens, processFullMode
    from src/public/app.js
  - the combined-summary construction of the merge API handler
    from src/api/merge.ts
JavaScript strings are modelled as Lean String (or List Char where only
lengths and slices matter), JS numbers holding integers as Nat or Int.
-/

namespace GroupResume

/-- A WhatsApp message as used by the chunker and the front-end scripts:
fields time, sender, content, isMedia. -/
structure Msg where
  time : String
  sender : String
  content : String
  isMedia : Bool
deriving DecidableEq, Repr

/-- chunker.ts, estimateTokens: Math.ceil(text.length / 4). -/
def estimateTokens (text : String) : Nat :=
  (text.length + 3) / 4

/-- The text used to estimate a message's token mass in chunkMessages:
the template literal [time] sender: content. -/
def msgText (m : Msg) : String :=
  "[" ++ m.time ++ "] " ++ m.sender ++ ": " ++ m.content

/-- Token estimate of one message. -/
def msgTokens (m : Msg) : Nat :=
  estimateTokens (msgText m)

/-- Estimated token mass of a chunk (sum of its messages' estimates). -/
def chunkTokens (c : List Msg) : Nat :=
  (c.map msgTokens).sum

/-- The loop of chunker.ts chunkMessages: state is the remaining messages,
the current chunk and its running token estimate; a chunk is flushed when
the next message would overflow a non-empty current chunk, and the final
non-empty chunk is flushed at the end. -/
def chunkLoop (maxTokens : Nat) : List Msg → List Msg → Nat → List (List Msg)
  | [], cur, _ => if cur.length > 0 then [cur] else []
  | m :: ms, cur, curTok =>
    if maxTokens < curTok + msgTokens m ∧ cur.length > 0 then
      cur :: chunkLoop maxTokens ms [m] (msgTokens m)
    else
      chunkLoop maxTokens ms (cur ++ [m]) (curTok + msgTokens m)

/-- chunker.ts chunkMessages: token-based chunk planner. -/
def chunkMessages (messages : List Msg) (maxTokens : Nat) : List (List Msg) :=
  if messages.length = 0 then [] else chunkLoop maxTokens messages [] 0

/-- The count-based slicing loop of processFull (part_000 lines 798-804):
chunks.push(messages.slice(i, i + chunkSize)) for i stepping by chunkSize.
Faithful to the source for every chunkSize of at least 1 (the source loop
does not terminate for chunkSize 0). -/
def sliceChunks {α : Type} (cap : Nat) : List α → List (List α)
  | [] => []
  | x :: xs => (x :: xs.take (cap - 1)) :: sliceChunks cap (xs.drop (cap - 1))
termination_by l => l.length
decreasing_by
  simp only [List.length_drop, List.length_cons]
  omega

theorem chunkLoop_flatten (maxTokens : Nat) :
    ∀ (ms cur : List Msg) (curTok : Nat),
      (chunkLoop maxTokens ms cur curTok).flatten = cur ++ ms := by
  intro ms
  induction ms with
  | nil =>
    intro cur curTok
    by_cases h : cur.length > 0
    · simp [chunkLoop, h]
    · have hc : cur = [] := List.length_eq_zero.mp (by omega)
      simp [chunkLoop, h, hc]
  | cons m ms ih =>
    intro cur curTok
    by_cases h : maxTokens < curTok + msgTokens m ∧ cur.length > 0
    · simp [chunkLoop, h, ih]
    · simp [chunkLoop, h, ih]

theorem sliceChunks_flatten {α : Type} (cap : Nat) :
    ∀ l : List α, (sliceChunks cap l).flatten = l := by
  intro l
  induction l using sliceChunks.induct cap with
  | case1 => simp [sliceChunks]
  | case2 x xs ih => simp [sliceChunks, ih]

/-- C1: the chunk plan, token-based (chunkMessages) or count-based
(the processFull slicing loop, for a positive chunk size), concatenated
in chunk order, equals the input message list exactly. -/
theorem chunk_plan_concat_eq_input (messages : List Msg) (cap : Nat) :
    (chunkMessages messages cap).flatten = messages ∧
      (0 < cap → (sliceChunks cap messages).flatten = messages) := by
  constructor
  · unfold chunkMessages
    by_cases h : messages.length = 0
    · simp [h, List.length_eq_zero.mp h]
    · simp [h, chunkLoop_flatten]
  · intro _
    exact sliceChunks_flatten cap messages

/-- Concrete instance of C1: both planners reassemble a two-message list. -/
theorem chunk_plan_concat_eq_input_witness :
    (chunkMessages [⟨"10:00", "ana", "oi", false⟩, ⟨"10:01", "bia", "tudo bem", false⟩] 3).flatten
        = [⟨"10:00", "ana", "oi", false⟩, ⟨"10:01", "bia", "tudo bem", false⟩] ∧
      (sliceChunks 1 [⟨"10:00", "ana", "oi", false⟩, ⟨"10:01", "bia", "tudo bem", false⟩]).flatten
        = [(⟨"10:00", "ana", "oi", false⟩ : Msg), ⟨"10:01", "bia", "tudo bem", false⟩] :=
  ⟨(chunk_plan_concat_eq_input _ 3).1,
   (chunk_plan_concat_eq_input _ 1).2 (by decide)⟩

theorem chunkTokens_append (a b : List Msg) :
    chunkTokens (a ++ b) = chunkTokens a + chunkTokens b := by
  simp [chunkTokens]

theorem chunkLoop_mem (maxTokens : Nat) :
    ∀ (ms cur : List Msg) (curTok : Nat),
      curTok = chunkTokens cur →
      (maxTokens < chunkTokens cur → cur.length ≤ 1) →
      ∀ c ∈ chunkLoop maxTokens ms cur curTok,
        c ≠ [] ∧ (maxTokens < chunkTokens c → c.length = 1) := by
  intro ms
  induction ms with
  | nil =>
    intro cur curTok htok hmass c hc
    by_cases h : cur.length > 0
    · simp [chunkLoop, h] at hc
      subst hc
      refine ⟨by intro hnil; simp [hnil] at h, fun hover => ?_⟩
      have := hmass hover
      omega
    · simp [chunkLoop, h] at hc
  | cons m ms ih =>
    intro cur curTok htok hmass c hc
    by_cases h : maxTokens < curTok + msgTokens m ∧ cur.length > 0
    · simp only [chunkLoop, if_pos h, List.mem_cons] at hc
      rcases hc with rfl | hc
      · refine ⟨by intro hnil; simp [hnil] at h, fun hover => ?_⟩
        have := hmass hover
        omega
      · exact ih [m] (msgTokens m) (by simp [chunkTokens]) (by simp) c hc
    · simp only [chunkLoop, if_neg h] at hc
      refine ih (cur ++ [m]) (curTok + msgTokens m)
        (by simp [chunkTokens_append, chunkTokens, htok]) ?_ c hc
      intro hover
      have h1m : chunkTokens [m] = msgTokens m := by simp [chunkTokens]
      rw [chunkTokens_append, h1m] at hover
      rcases Decidable.not_and_iff_or_not.mp h with h1 | h2
      · omega
      · have hc0 : cur = [] := List.length_eq_zero.mp (by omega)
        simp [hc0]

/-- C8: every chunk the token-based planner produces is non-empty, a chunk
whose estimated token mass exceeds the capacity is a single message, and
empty input yields an empty chunk list. -/
theorem chunk_nonempty_oversized_alone (messages : List Msg) (cap : Nat) :
    (∀ c ∈ chunkMessages messages cap, c ≠ [] ∧ (cap < chunkTokens c → c.length = 1)) ∧
      chunkMessages ([] : List Msg) cap = [] := by
  constructor
  · intro c hc
    unfold chunkMessages at hc
    by_cases h : messages.length = 0
    · simp [h] at hc
    · simp only [if_neg h] at hc
      exact chunkLoop_mem cap messages [] 0 (by simp [chunkTokens]) (by simp [chunkTokens]) c hc
  · rfl

/-- Concrete instance of C8: the single chunk of a one-message input under
capacity 0 is non-empty and, being oversized, has exactly one message;
empty input yields no chunks. -/
theorem chunk_nonempty_oversized_alone_witness :
    (([⟨"10:00", "ana", "oi", false⟩] : List Msg) ≠ [] ∧
        (0 < chunkTokens [⟨"10:00", "ana", "oi", false⟩] →
          ([⟨"10:00", "ana", "oi", false⟩] : List Msg).length = 1)) ∧
      chunkMessages ([] : List Msg) 0 = [] :=
  ⟨(chunk_nonempty_oversized_alone [⟨"10:00", "ana", "oi", false⟩] 0).1 _ (by decide),
   (chunk_nonempty_oversized_alone [] 0).2⟩

/-- Decimal digit as a character (character code 48 + value). -/
def digitChar (n : Nat) : Char := Char.ofNat (48 + n)

/-- Decimal rendering of a natural number, modelling the JS template
literal interpolation of an integer. -/
def natChars (n : Nat) : List Char :=
  if _h : n < 10 then [digitChar n]
  else natChars (n / 10) ++ [digitChar (n % 10)]
termination_by n
decreasing_by exact Nat.div_lt_self (by omega) (by omega)

/-- chunker.ts formatChunkForAI, per-message line. -/
def formatMsgLine (includeNames : Bool) (m : Msg) : String :=
  if m.isMedia then
    if includeNames then "[" ++ m.time ++ "] " ++ m.sender ++ ": [mídia compartilhada]"
    else "[" ++ m.time ++ "] [mídia compartilhada]"
  else
    if includeNames then "[" ++ m.time ++ "] " ++ m.sender ++ ": " ++ m.content
    else "[" ++ m.time ++ "] " ++ m.content

/-- chunker.ts formatChunkForAI: optional part header, then the non-system
messages formatted one per line. -/
def formatChunkForAI (chunk : List Msg) (chunkIndex totalChunks : Nat)
    (includeNames : Bool) : String :=
  let header := if 1 < totalChunks then
      "[Parte " ++ String.mk (natChars (chunkIndex + 1)) ++ " de "
        ++ String.mk (natChars totalChunks) ++ "]" ++ "\n\n"
    else ""
  header ++ String.intercalate "\n"
    ((chunk.filter (fun m => m.sender != "__system__")).map (formatMsgLine includeNames))

/-- C10: the text sent to the generation capability is invariant under
arbitrary changes to system-marker messages: any two chunks that agree
after dropping messages whose sender is the system marker format
identically, so no system message influences the output. -/
theorem format_chunk_system_invariant (c1 c2 : List Msg) (i t : Nat) (names : Bool)
    (h : c1.filter (fun m => m.sender != "__system__")
        = c2.filter (fun m => m.sender != "__system__")) :
    formatChunkForAI c1 i t names = formatChunkForAI c2 i t names := by
  simp only [formatChunkForAI, h]

/-- Concrete instance of C10: inserting a system message leaves the
formatted chunk text unchanged. -/
theorem format_chunk_system_invariant_witness :
    (([⟨"09:00", "__system__", "grupo criado", false⟩, ⟨"10:00", "ana", "oi", false⟩] : List Msg).filter
          (fun m => m.sender != "__system__")
        = ([⟨"10:00", "ana", "oi", false⟩] : List Msg).filter (fun m => m.sender != "__system__")) ∧
      formatChunkForAI [⟨"09:00", "__system__", "grupo criado", false⟩, ⟨"10:00", "ana", "oi", false⟩] 0 1 true
        = formatChunkForAI [⟨"10:00", "ana", "oi", false⟩] 0 1 true :=
  ⟨by decide, format_chunk_system_invariant _ _ 0 1 true (by decide)⟩

/-- src/public/app.js GROQ_TPM_LIMIT. -/
def GROQ_TPM_LIMIT : Nat := 6000

/-- The token-tracking state of src/public/app.js: tokensUsed and
tokenResetTime (a millisecond timestamp, 0 when no window is open). -/
structure TokenState where
  tokensUsed : Nat
  tokenResetTime : Nat
deriving DecidableEq, Repr

/-- app.js updateTokensUsed: add the tokens, then open a 60-second window
if the stored reset time is in the past. -/
def updateTokensUsed (now tokens : Nat) (s : TokenState) : TokenState :=
  let used := s.tokensUsed + tokens
  let reset := if s.tokenResetTime < now then now + 60000 else s.tokenResetTime
  ⟨used, reset⟩

/-- app.js getAvailableTokens: lazily reset once the window has passed,
then report the limit minus the recorded usage (returned with the possibly
reset state; the JS function mutates the state in place). -/
def getAvailableTokens (now : Nat) (s : TokenState) : Int × TokenState :=
  let s2 := if s.tokenResetTime < now then ⟨0, 0⟩ else s
  ((GROQ_TPM_LIMIT : Nat) - (s2.tokensUsed : Int), s2)

/-- C3 fails on the code: recording 7000 tokens against the 6000-token
limit makes getAvailableTokens report -1000 while still inside the window;
there is no clamp at zero. -/
theorem available_tokens_negative_counterexample :
    (getAvailableTokens 1000 (updateTokensUsed 1000 7000 ⟨0, 0⟩)).1 < 0 := by decide

/-- C3 amended: within an open window, getAvailableTokens returns the
limit minus the recorded usage with no lower clamp, so whenever the
accumulated usage exceeds the limit the reported remainder is negative. -/
theorem available_tokens_unclamped (now : Nat) (s : TokenState)
    (h : now ≤ s.tokenResetTime) :
    (getAvailableTokens now s).1 = (GROQ_TPM_LIMIT : Nat) - (s.tokensUsed : Int) ∧
      (GROQ_TPM_LIMIT < s.tokensUsed → (getAvailableTokens now s).1 < 0) := by
  have hn : ¬ s.tokenResetTime < now := by omega
  refine ⟨by simp [getAvailableTokens, hn], fun hgt => ?_⟩
  simp only [getAvailableTokens, if_neg hn]
  have : (6000 : Nat) < s.tokensUsed := hgt
  simp only [GROQ_TPM_LIMIT]
  omega

/-- Concrete instance of C3 amended, at usage 7000 inside a window. -/
theorem available_tokens_unclamped_witness :
    (getAvailableTokens 1000 ⟨7000, 61000⟩).1
        = (GROQ_TPM_LIMIT : Nat) - ((7000 : Nat) : Int) ∧
      (getAvailableTokens 1000 ⟨7000, 61000⟩).1 < 0 :=
  ⟨(available_tokens_unclamped 1000 ⟨7000, 61000⟩ (by decide)).1,
   (available_tokens_unclamped 1000 ⟨7000, 61000⟩ (by decide)).2 (by decide)⟩

/-- Outcome of one external generation call, as seen by the front-end
chunk loop: success with a summary and token count, a rate-limit
rejection, or any other (fatal) error. -/
inductive GenResult where
  | ok (summary : String) (tokens : Nat)
  | rateLimited
  | fatalErr
deriving DecidableEq, Repr

/-- Control state of the processFullMode chunk loop of src/public/app.js:
the loop index i, the collected summaries, and a ghost count of
rate-limited attempts (the source keeps no such counter). -/
structure FullModeState where
  i : Nat
  summaries : List String
  retries : Nat
deriving DecidableEq, Repr

/-- Result of one loop iteration: continue with a new state, finish with
the collected summaries, or abort on a non-rate-limit error. -/
inductive StepOut where
  | next (s : FullModeState)
  | done (summaries : List String)
  | fatal
deriving DecidableEq, Repr

/-- One iteration of the processFullMode chunk loop (src/public/app.js
lines 371-399). gen receives the chunk index and the attempt number. On
success the index advances and the summary is appended; on a rate-limit
error the source waits 60 seconds, decrements i, and continues, so the
same chunk is retried (retries grows by one); any other error is rethrown
and aborts. The budget wait before the call changes no control state and
is elided. -/
def stepFullMode (gen : Nat → Nat → GenResult) (numChunks : Nat)
    (s : FullModeState) : StepOut :=
  if s.i < numChunks then
    match gen s.i s.retries with
    | .ok text _ => .next ⟨s.i + 1, s.summaries ++ [text], s.retries⟩
    | .rateLimited => .next ⟨s.i, s.summaries, s.retries + 1⟩
    | .fatalErr => .fatal
  else .done s.summaries

/-- Run n iterations of the chunk loop (or stop early on done/fatal). -/
def iterFullMode (gen : Nat → Nat → GenResult) (numChunks : Nat) :
    Nat → FullModeState → StepOut
  | 0, s => .next s
  | n + 1, s =>
    match stepFullMode gen numChunks s with
    | .next s2 => iterFullMode gen numChunks n s2
    | out => out

theorem iterFullMode_rateLimited (n : Nat) : ∀ k : Nat,
    iterFullMode (fun _ _ => GenResult.rateLimited) 1 n ⟨0, [], k⟩
      = StepOut.next ⟨0, [], k + n⟩ := by
  induction n with
  | zero => intro k; rfl
  | succ n ih =>
    intro k
    have hstep : stepFullMode (fun _ _ => GenResult.rateLimited) 1 ⟨0, [], k⟩
        = StepOut.next ⟨0, [], k + 1⟩ := rfl
    calc iterFullMode (fun _ _ => GenResult.rateLimited) 1 (n + 1) ⟨0, [], k⟩
        = iterFullMode (fun _ _ => GenResult.rateLimited) 1 n ⟨0, [], k + 1⟩ := by
          simp [iterFullMode, hstep]
      _ = StepOut.next ⟨0, [], k + 1 + n⟩ := ih (k + 1)
      _ = StepOut.next ⟨0, [], k + (n + 1)⟩ := by
          have : k + 1 + n = k + (n + 1) := by omega
          rw [this]

/-- C2 fails on the code: on a single chunk whose generation call is
rate-limited on every attempt, the processFullMode loop is still on chunk
0 after any number n of iterations, having retried it n times, with no
summary produced, no fatal error, and no retry ceiling. -/
theorem retry_unbounded (n : Nat) :
    iterFullMode (fun _ _ => GenResult.rateLimited) 1 n ⟨0, [], 0⟩
      = StepOut.next ⟨0, [], n⟩ := by
  have h := iterFullMode_rateLimited n 0
  simpa using h

theorem sliceChunks_length_le {α : Type} (cap : Nat) :
    ∀ l : List α, ∀ b ∈ sliceChunks cap l, b.length ≤ max 1 cap := by
  intro l
  induction l using sliceChunks.induct cap with
  | case1 => intro b hb; simp [sliceChunks] at hb
  | case2 x xs ih =>
    intro b hb
    simp only [sliceChunks, List.mem_cons] at hb
    rcases hb with rfl | hb
    · simp only [List.length_cons, List.length_take]
      omega
    · exact ih b hb

theorem sliceChunks3_length {α : Type} :
    ∀ l : List α, (sliceChunks 3 l).length = (l.length + 2) / 3 := by
  intro l
  induction l using sliceChunks.induct 3 with
  | case1 => simp [sliceChunks]
  | case2 x xs ih =>
    simp only [sliceChunks, List.length_cons, ih, List.length_drop]
    omega

/-- The first-pass loop of part_000 mergeSummaries (lines 192-207): each
batch of size 1 passes through without a call; every other batch becomes
one mergeFn call. Returns the pass results and the list of issued calls
(each call recorded as the batch of summary texts it received). -/
def firstPassGo (f : List String → String) :
    List (List String) → List String × List (List String)
  | [] => ([], [])
  | b :: bs =>
    let rest := firstPassGo f bs
    match b with
    | [x] => (x :: rest.1, rest.2)
    | _ => (f b :: rest.1, b :: rest.2)

theorem firstPassGo_fst_length (f : List String → String) :
    ∀ bs : List (List String), (firstPassGo f bs).1.length = bs.length := by
  intro bs
  induction bs with
  | nil => rfl
  | cons b bs ih =>
    rcases b with _ | ⟨x, _ | ⟨y, ys⟩⟩ <;> simp [firstPassGo, ih]

theorem firstPassGo_snd_mem (f : List String → String) :
    ∀ bs : List (List String), ∀ b ∈ (firstPassGo f bs).2, b ∈ bs := by
  intro bs
  induction bs with
  | nil => intro b hb; simp [firstPassGo] at hb
  | cons c cs ih =>
    intro b hb
    rcases c with _ | ⟨x, _ | ⟨y, ys⟩⟩
    · simp only [firstPassGo, List.mem_cons] at hb ⊢
      rcases hb with rfl | hb
      · exact Or.inl rfl
      · exact Or.inr (ih b hb)
    · simp only [firstPassGo, List.mem_cons] at hb ⊢
      exact Or.inr (ih b hb)
    · simp only [firstPassGo, List.mem_cons] at hb ⊢
      rcases hb with rfl | hb
      · exact Or.inl rfl
      · exact Or.inr (ih b hb)

/-- part_000 mergeSummaries (lines 184-225), with the external merge call
modelled as f. Returns the final text and the list of calls issued, each
recorded as the batch of summary texts it received. When more than 4
summaries are present they are sliced into batches of 3; singleton batches
pass through; if more than 3 first-pass results remain the function
recurses, otherwise a final call merges them; with at most 4 summaries a
single call over all of them is issued. -/
def mergeSummariesModel (f : List String → String) (summaries : List String) :
    String × List (List String) :=
  if _h : 4 < summaries.length then
    if _h2 : 3 < (firstPassGo f (sliceChunks 3 summaries)).1.length then
      ((mergeSummariesModel f (firstPassGo f (sliceChunks 3 summaries)).1).1,
        (firstPassGo f (sliceChunks 3 summaries)).2
          ++ (mergeSummariesModel f (firstPassGo f (sliceChunks 3 summaries)).1).2)
    else
      (f (firstPassGo f (sliceChunks 3 summaries)).1,
        (firstPassGo f (sliceChunks 3 summaries)).2
          ++ [(firstPassGo f (sliceChunks 3 summaries)).1])
  else
    (f summaries, [summaries])
termination_by summaries.length
decreasing_by
  rw [firstPassGo_fst_length, sliceChunks3_length]
  omega

theorem merge_fanin_aux (f : List String → String) :
    ∀ (n : Nat) (s : List String), s.length ≤ n →
      ∀ b ∈ (mergeSummariesModel f s).2, b.length ≤ 4 := by
  intro n
  induction n with
  | zero =>
    intro s hs b hb
    rw [mergeSummariesModel] at hb
    have hlen : ¬ 4 < s.length := by omega
    simp only [dif_neg hlen, List.mem_singleton] at hb
    subst hb
    omega
  | succ n ih =>
    intro s hs b hb
    rw [mergeSummariesModel] at hb
    by_cases hlen : 4 < s.length
    · simp only [dif_pos hlen] at hb
      by_cases h2 : 3 < (firstPassGo f (sliceChunks 3 s)).1.length
      · simp only [dif_pos h2, List.mem_append] at hb
        rcases hb with hb | hb
        · have := firstPassGo_snd_mem f (sliceChunks 3 s) b hb
          have := sliceChunks_length_le 3 s b this
          omega
        · refine ih (firstPassGo f (sliceChunks 3 s)).1 ?_ b hb
          rw [firstPassGo_fst_length, sliceChunks3_length]
          omega
      · simp only [dif_neg h2, List.mem_append, List.mem_singleton] at hb
        rcases hb with hb | rfl
        · have := firstPassGo_snd_mem f (sliceChunks 3 s) b hb
          have := sliceChunks_length_le 3 s b this
          omega
        · omega
    · simp only [dif_neg hlen, List.mem_singleton] at hb
      subst hb
      omega

/-- C5: every individual call mergeSummaries issues to the external merge
capability receives at most 4 summary texts (the fan-in the source
enforces: batches of 3 while more than 4 summaries remain, otherwise one
final call over at most 4), however many summaries there are in total. -/
theorem merge_fanin_bound (f : List String → String) (summaries : List String) :
    ∀ b ∈ (mergeSummariesModel f summaries).2, b.length ≤ 4 :=
  merge_fanin_aux f summaries.length summaries le_rfl

/-- Concrete instance of C5: the one call issued for a two-summary list
receives two texts. -/
theorem merge_fanin_bound_witness :
    (["a", "b"] : List String).length ≤ 4 :=
  merge_fanin_bound (fun _ => "") ["a", "b"] ["a", "b"] (by
    rw [mergeSummariesModel]
    simp)

/-- The merge stage of part_000 processFull (lines 827-833): a single
partial summary is used directly as the final summary with no merge call;
otherwise mergeSummaries is invoked. -/
def mergeStage (f : List String → String) (summaries : List String) :
    String × List (List String) :=
  match summaries with
  | [s] => (s, [])
  | _ => mergeSummariesModel f summaries

/-- C6: merging a single-element summary list returns that summary
unchanged and issues zero calls to the merge capability. -/
theorem merge_single_identity (f : List String → String) (s : String) :
    mergeStage f [s] = (s, []) := rfl

theorem natChars_length_pos (n : Nat) : 1 ≤ (natChars n).length := by
  rw [natChars]
  split
  · simp
  · simp

theorem natChars_length_lt_ten (n : Nat) (h : n < 10) : (natChars n).length = 1 := by
  rw [natChars]
  simp [h]

theorem natChars_length_lt_hundred (n : Nat) (h : n < 100) : (natChars n).length ≤ 2 := by
  rw [natChars]
  split
  · simp
  · have h10 : n / 10 < 10 := by omega
    simp [natChars_length_lt_ten _ h10]

theorem natChars_length_lt_thousand (n : Nat) (h : n < 1000) : (natChars n).length ≤ 3 := by
  rw [natChars]
  split
  · simp
  · have h100 : n / 10 < 100 := by omega
    have := natChars_length_lt_hundred _ h100
    simp only [List.length_append, List.length_cons, List.length_nil]
    omega

/-- src/api/merge.ts MAX_INPUT_CHARS. -/
def MAX_INPUT_CHARS : Nat := 4000

/-- One part of the combined merge input (merge.ts line 54): the template
literal Parte i+1 colon space, the i-th summary, and a blank line, as a
character list (JS strings are character sequences here; only lengths and
slices matter). -/
def partChars (i : Nat) (s : List Char) : List Char :=
  "Parte ".data ++ natChars (i + 1) ++ ": ".data ++ s ++ "\n\n".data

/-- The truncated form of a part (merge.ts line 59): the summary is cut to
the remaining room and an ellipsis is appended. -/
def truncChars (i : Nat) (s : List Char) (remaining : Nat) : List Char :=
  "Parte ".data ++ natChars (i + 1) ++ ": ".data ++ s.take remaining ++ "...\n\n".data

/-- The combined-summary construction loop of the merge API handler
(merge.ts lines 52-64): parts are appended in order while they fit; on the
first part that would push past MAX_INPUT_CHARS, the remaining room (less
a 50-character reserve) is computed, the part is added truncated to that
room only when more than 100 characters remain, and the loop breaks, so
all later summaries are omitted. -/
def buildGo : List (List Char) → Nat → List Char → List Char
  | [], _, combined => combined
  | s :: rest, i, combined =>
    if MAX_INPUT_CHARS < combined.length + (partChars i s).length then
      if (100 : Int) < (MAX_INPUT_CHARS : Int) - combined.length - 50 then
        combined ++ truncChars i s ((MAX_INPUT_CHARS : Int) - combined.length - 50).toNat
      else combined
    else buildGo rest (i + 1) (combined ++ partChars i s)

/-- merge.ts handler: the combined text built from the posted summaries. -/
def buildCombined (summaries : List (List Char)) : List Char :=
  buildGo summaries 0 []

theorem partChars_length (i : Nat) (s : List Char) :
    (partChars i s).length = 10 + (natChars (i + 1)).length + s.length := by
  have h1 : ("Parte ".data).length = 6 := by decide
  have h2 : (": ".data).length = 2 := by decide
  have h3 : ("\n\n".data).length = 2 := by decide
  simp only [partChars, List.length_append, h1, h2, h3]
  omega

theorem truncChars_length (i : Nat) (s : List Char) (remaining : Nat) :
    (truncChars i s remaining).length
      = 13 + (natChars (i + 1)).length + min remaining s.length := by
  have h1 : ("Parte ".data).length = 6 := by decide
  have h2 : (": ".data).length = 2 := by decide
  have h3 : ("...\n\n".data).length = 5 := by decide
  simp only [truncChars, List.length_append, List.length_take, h1, h2, h3]
  omega

theorem buildGo_length_le :
    ∀ (rest : List (List Char)) (i : Nat) (combined : List Char),
      combined.length ≤ MAX_INPUT_CHARS →
      11 * i ≤ combined.length →
      (buildGo rest i combined).length ≤ MAX_INPUT_CHARS := by
  intro rest
  induction rest with
  | nil =>
    intro i c h1 h2
    simpa [buildGo] using h1
  | cons s rest ih =>
    intro i c h1 h2
    rw [buildGo]
    by_cases hov : MAX_INPUT_CHARS < c.length + (partChars i s).length
    · simp only [if_pos hov]
      by_cases hrem : (100 : Int) < (MAX_INPUT_CHARS : Int) - c.length - 50
      · simp only [if_pos hrem]
        have hc : c.length < 3850 := by
          simp only [MAX_INPUT_CHARS] at hrem
          omega
        have hi : i + 1 < 1000 := by omega
        have hd : (natChars (i + 1)).length ≤ 3 := natChars_length_lt_thousand _ hi
        rw [List.length_append, truncChars_length]
        simp only [MAX_INPUT_CHARS] at hov hrem ⊢
        omega
      · simp only [if_neg hrem]
        exact h1
    · simp only [if_neg hov]
      have hp : 11 ≤ (partChars i s).length := by
        have := natChars_length_pos (i + 1)
        rw [partChars_length]
        omega
      refine ih (i + 1) (c ++ partChars i s) ?_ ?_
      · rw [List.length_append]
        omega
      · rw [List.length_append]
        omega

/-- C9: the combined summary text the merge API handler assembles for the
external model call contains at most MAX_INPUT_CHARS = 4000 characters,
for every posted summaries list: parts are concatenated in order until the
limit, the first overflowing part is truncated to the remaining room (and
only included when more than 100 characters of room remain), and all later
summaries are omitted. -/
theorem merge_input_char_bound (summaries : List (List Char)) :
    (buildCombined summaries).length ≤ MAX_INPUT_CHARS :=
  buildGo_length_le summaries 0 [] (by simp [MAX_INPUT_CHARS]) (by simp)

/-- Numeric value of a decimal digit character. -/
def dval (c : Char) : Nat := c.toNat - 48

/-- Two-digit-hour attempt of the part_000 parseTime regex at a position:
two digits, a colon, two digits. -/
def twoDigitAt : List Char → Option Nat
  | a :: b :: c :: d :: e :: _ =>
    if a.isDigit ∧ b.isDigit ∧ c = ':' ∧ d.isDigit ∧ e.isDigit then
      some ((10 * dval a + dval b) * 60 + (10 * dval d + dval e))
    else none
  | _ => none

/-- One-digit-hour attempt of the parseTime regex at a position: a digit,
a colon, two digits (the regex backtracks to this when the greedy
two-digit hour fails). -/
def oneDigitAt : List Char → Option Nat
  | a :: b :: d :: e :: _ =>
    if a.isDigit ∧ b = ':' ∧ d.isDigit ∧ e.isDigit then
      some (dval a * 60 + (10 * dval d + dval e))
    else none
  | _ => none

/-- Leftmost match of the parseTime regex over the character list. -/
def scanTime : List Char → Option Nat
  | [] => none
  | c :: cs =>
    match twoDigitAt (c :: cs) with
    | some v => some v
    | none =>
      match oneDigitAt (c :: cs) with
      | some v => some v
      | none => scanTime cs

/-- part_000 parseTime (lines 241-248): hour times 60 plus minute for the
first HH:MM or H:MM occurrence in the time field, 0 when none matches. -/
def parseTime (m : Msg) : Nat := (scanTime m.time.data).getD 0

/-- The loop of part_000 groupIntoBlocks: a new block starts whenever the
time gap to the previous message exceeds maxGap minutes or is negative
(interpreted as a day rollover). -/
def blocksGo (maxGap : Int) (prev : Msg) (curBlock : List Msg) :
    List Msg → List (List Msg)
  | [] => [curBlock]
  | m :: ms =>
    if maxGap < (parseTime m : Int) - (parseTime prev : Int) ∨
        (parseTime m : Int) - (parseTime prev : Int) < 0 then
      curBlock :: blocksGo maxGap m [m] ms
    else
      blocksGo maxGap m (curBlock ++ [m]) ms

/-- part_000 groupIntoBlocks (lines 250-275). -/
def groupIntoBlocks (messages : List Msg) (maxGap : Int) : List (List Msg) :=
  match messages with
  | [] => []
  | m :: ms => blocksGo maxGap m [m] ms

/-- Stable insertion for the descending-size block sort. Blocks carry the
index they were created with, modelling JS array-object identity: the
source compares blocks by reference, and each block array is pushed
exactly once, so reference equality is index equality. -/
def insertBlockDesc (b : Nat × List Msg) :
    List (Nat × List Msg) → List (Nat × List Msg)
  | [] => [b]
  | c :: cs => if c.2.length ≤ b.2.length then b :: c :: cs
      else c :: insertBlockDesc b cs

/-- The source's stable sort by descending block size
([...blocks].sort((a, b) => b.length - a.length)), expressed as a stable
insertion sort; a stable sort for a total preorder is unique, so this
equals the (stable, per the JS spec) Array.prototype.sort result. -/
def sortBlocksDesc : List (Nat × List Msg) → List (Nat × List Msg)
  | [] => []
  | b :: bs => insertBlockDesc b (sortBlocksDesc bs)

/-- The first-block selection of smartSample (lines 296-299): include the
first block when it fits the target. Returns selected messages and their
count (the source's result array and totalMsgs counter). -/
def firstSel (blocks : List (Nat × List Msg)) (target : Nat) :
    List Msg × Nat :=
  match blocks.head? with
  | some fb => if fb.2.length ≤ target then (fb.2, fb.2.length) else ([], 0)
  | none => ([], 0)

/-- The last-block selection of smartSample (lines 301-304): include the
last block when it is a different array from the first (index differs)
and still fits. -/
def lastSel (blocks : List (Nat × List Msg)) (target : Nat)
    (sel : List Msg × Nat) : List Msg × Nat :=
  match blocks.getLast? with
  | some lb =>
    if lb.1 ≠ 0 ∧ sel.2 + lb.2.length ≤ target then
      (sel.1 ++ lb.2, sel.2 + lb.2.length)
    else sel
  | none => sel

/-- The fill loop of smartSample (lines 307-317): walk the size-sorted
blocks, skipping the first and last block (by identity), adding whole
blocks that fit; on the first non-fitting block, when room remains, take
a prefix exactly filling the remainder and stop. -/
def selectLoop (target lastIdx : Nat) :
    List (Nat × List Msg) → List Msg → Nat → List Msg
  | [], res, _ => res
  | b :: bs, res, total =>
    if b.1 = 0 ∨ b.1 = lastIdx then selectLoop target lastIdx bs res total
    else if total + b.2.length ≤ target then
      selectLoop target lastIdx bs (res ++ b.2) (total + b.2.length)
    else if total < target then res ++ b.2.take (target - total)
    else selectLoop target lastIdx bs res total

/-- Stable insertion for the final chronological re-sort. -/
def insertByTime (m : Msg) : List Msg → List Msg
  | [] => [m]
  | x :: xs => if parseTime m ≤ parseTime x then m :: x :: xs
      else x :: insertByTime m xs

/-- The source's final result.sort((a, b) => parseTime(a) - parseTime(b))
(line 320), expressed as a stable insertion sort on the parsed
time-of-day key. -/
def sortByTime : List Msg → List Msg
  | [] => []
  | m :: ms => insertByTime m (sortByTime ms)

/-- part_000 smartSample (lines 277-321). -/
def smartSample (dayMessages : List Msg) (targetMsgs : Nat) : List Msg :=
  if dayMessages.length ≤ targetMsgs then dayMessages
  else
    sortByTime
      (selectLoop targetMsgs ((groupIntoBlocks dayMessages 5).enum.length - 1)
        (sortBlocksDesc ((groupIntoBlocks dayMessages 5).enum))
        (lastSel ((groupIntoBlocks dayMessages 5).enum) targetMsgs
          (firstSel ((groupIntoBlocks dayMessages 5).enum) targetMsgs)).1
        (lastSel ((groupIntoBlocks dayMessages 5).enum) targetMsgs
          (firstSel ((groupIntoBlocks dayMessages 5).enum) targetMsgs)).2)

theorem insertByTime_length (m : Msg) :
    ∀ l : List Msg, (insertByTime m l).length = l.length + 1 := by
  intro l
  induction l with
  | nil => rfl
  | cons x xs ih =>
    by_cases h : parseTime m ≤ parseTime x <;> simp [insertByTime, h, ih]

theorem sortByTime_length : ∀ l : List Msg, (sortByTime l).length = l.length := by
  intro l
  induction l with
  | nil => rfl
  | cons m ms ih => simp [sortByTime, insertByTime_length, ih]

theorem selectLoop_length (target lastIdx : Nat) :
    ∀ (bs : List (Nat × List Msg)) (res : List Msg) (total : Nat),
      res.length = total → total ≤ target →
      (selectLoop target lastIdx bs res total).length ≤ target := by
  intro bs
  induction bs with
  | nil =>
    intro res total h1 h2
    simp only [selectLoop]
    omega
  | cons b bs ih =>
    intro res total h1 h2
    rw [selectLoop]
    by_cases hskip : b.1 = 0 ∨ b.1 = lastIdx
    · simp only [if_pos hskip]
      exact ih res total h1 h2
    · simp only [if_neg hskip]
      by_cases hfit : total + b.2.length ≤ target
      · simp only [if_pos hfit]
        exact ih (res ++ b.2) (total + b.2.length) (by simp [h1]) hfit
      · simp only [if_neg hfit]
        by_cases hroom : total < target
        · simp only [if_pos hroom, List.length_append, List.length_take]
          omega
        · simp only [if_neg hroom]
          exact ih res total h1 h2

theorem firstSel_inv (blocks : List (Nat × List Msg)) (target : Nat) :
    (firstSel blocks target).1.length = (firstSel blocks target).2 ∧
      (firstSel blocks target).2 ≤ target := by
  unfold firstSel
  cases blocks.head? with
  | none => simp
  | some fb =>
    by_cases h : fb.2.length ≤ target <;> simp [h]

theorem lastSel_inv (blocks : List (Nat × List Msg)) (target : Nat)
    (sel : List Msg × Nat) (h1 : sel.1.length = sel.2) (h2 : sel.2 ≤ target) :
    (lastSel blocks target sel).1.length = (lastSel blocks target sel).2 ∧
      (lastSel blocks target sel).2 ≤ target := by
  unfold lastSel
  cases blocks.getLast? with
  | none => exact ⟨h1, h2⟩
  | some lb =>
    by_cases h : lb.1 ≠ 0 ∧ sel.2 + lb.2.length ≤ target
    · simp only [if_pos h]
      refine ⟨?_, h.2⟩
      simp [h1]
    · simp only [if_neg h]
      exact ⟨h1, h2⟩

/-- C4: the Smart Sampler never returns more than targetMsgs messages,
and returns the input list unchanged whenever it already fits the
target. -/
theorem smart_sample_bound (dayMessages : List Msg) (targetMsgs : Nat) :
    (smartSample dayMessages targetMsgs).length ≤ targetMsgs ∧
      (dayMessages.length ≤ targetMsgs →
        smartSample dayMessages targetMsgs = dayMessages) := by
  by_cases h : dayMessages.length ≤ targetMsgs
  · refine ⟨?_, fun _ => by simp [smartSample, h]⟩
    simp only [smartSample, if_pos h]
    exact h
  · refine ⟨?_, fun hc => absurd hc h⟩
    simp only [smartSample, if_neg h]
    rw [sortByTime_length]
    have hf := firstSel_inv ((groupIntoBlocks dayMessages 5).enum) targetMsgs
    have hl := lastSel_inv ((groupIntoBlocks dayMessages 5).enum) targetMsgs
      (firstSel ((groupIntoBlocks dayMessages 5).enum) targetMsgs) hf.1 hf.2
    exact selectLoop_length _ _ _ _ _ hl.1 hl.2

/-- Concrete instance of C4: a one-message list under target 5 is
returned unchanged, and its length respects the bound. -/
theorem smart_sample_bound_witness :
    (smartSample [⟨"10:00", "ana", "oi", false⟩] 5).length ≤ 5 ∧
      smartSample [⟨"10:00", "ana", "oi", false⟩] 5
        = [⟨"10:00", "ana", "oi", false⟩] :=
  ⟨(smart_sample_bound [⟨"10:00", "ana", "oi", false⟩] 5).1,
   (smart_sample_bound [⟨"10:00", "ana", "oi", false⟩] 5).2 (by decide)⟩

/-- C7 fails on the code: the sampler re-sorts by parsed time-of-day, not
by original file position. On a day-rollover input (a 23:50 message
followed by next-day 0:05 and afternoon messages) sampled to 3 messages,
the output places the 23:50 message after the afternoon ones, so it is
not a subsequence of the input in the input's original order. -/
theorem smart_sample_not_original_order :
    ¬ List.Sublist
        (smartSample
          [⟨"23:50", "ana", "boa noite", false⟩, ⟨"0:05", "bia", "oi", false⟩,
           ⟨"16:40", "caio", "tarde", false⟩, ⟨"16:41", "caio", "oi de novo", false⟩] 3)
        [⟨"23:50", "ana", "boa noite", false⟩, ⟨"0:05", "bia", "oi", false⟩,
         ⟨"16:40", "caio", "tarde", false⟩, ⟨"16:41", "caio", "oi de novo", false⟩] := by
  decide

theorem insertByTime_mem (m : Msg) :
    ∀ (l : List Msg) (a : Msg), a ∈ insertByTime m l ↔ a = m ∨ a ∈ l := by
  intro l
  induction l with
  | nil => intro a; simp [insertByTime]
  | cons x xs ih =>
    intro a
    by_cases h : parseTime m ≤ parseTime x
    · simp [insertByTime, h]
    · simp only [insertByTime, if_neg h, List.mem_cons, ih]
      tauto

theorem sortByTime_mem :
    ∀ (l : List Msg) (a : Msg), a ∈ sortByTime l ↔ a ∈ l := by
  intro l
  induction l with
  | nil => intro a; simp [sortByTime]
  | cons m ms ih =>
    intro a
    simp [sortByTime, insertByTime_mem, ih]

theorem insertByTime_sorted (m : Msg) :
    ∀ l : List Msg,
      l.Pairwise (fun a b => parseTime a ≤ parseTime b) →
      (insertByTime m l).Pairwise (fun a b => parseTime a ≤ parseTime b) := by
  intro l
  induction l with
  | nil => intro _; simp [insertByTime]
  | cons x xs ih =>
    intro hp
    rw [List.pairwise_cons] at hp
    obtain ⟨hx, hxs⟩ := hp
    by_cases hle : parseTime m ≤ parseTime x
    · simp only [insertByTime, if_pos hle]
      rw [List.pairwise_cons]
      refine ⟨fun b hb => ?_, ?_⟩
      · rcases List.mem_cons.mp hb with rfl | hb
        · exact hle
        · exact le_trans hle (hx b hb)
      · rw [List.pairwise_cons]
        exact ⟨hx, hxs⟩
    · simp only [insertByTime, if_neg hle]
      rw [List.pairwise_cons]
      refine ⟨fun b hb => ?_, ih hxs⟩
      rw [insertByTime_mem] at hb
      rcases hb with rfl | hb
      · omega
      · exact hx b hb

theorem sortByTime_sorted :
    ∀ l : List Msg,
      (sortByTime l).Pairwise (fun a b => parseTime a ≤ parseTime b) := by
  intro l
  induction l with
  | nil => simp [sortByTime]
  | cons m ms ih => exact insertByTime_sorted m _ ih

theorem blocksGo_mem (maxGap : Int) :
    ∀ (rest : List Msg) (prev : Msg) (cur : List Msg) (b : List Msg),
      b ∈ blocksGo maxGap prev cur rest → ∀ x ∈ b, x ∈ cur ++ rest := by
  intro rest
  induction rest with
  | nil =>
    intro prev cur b hb x hx
    simp only [blocksGo, List.mem_singleton] at hb
    subst hb
    simp [hx]
  | cons m ms ih =>
    intro prev cur b hb x hx
    rw [blocksGo] at hb
    by_cases hgap : maxGap < (parseTime m : Int) - (parseTime prev : Int) ∨
        (parseTime m : Int) - (parseTime prev : Int) < 0
    · simp only [if_pos hgap, List.mem_cons] at hb
      rcases hb with rfl | hb
      · simp [hx]
      · have := ih m [m] b hb x hx
        simp only [List.singleton_append] at this
        simp [this]
    · simp only [if_neg hgap] at hb
      have := ih m (cur ++ [m]) b hb x hx
      simp only [List.append_assoc, List.singleton_append] at this
      exact this

theorem groupIntoBlocks_mem (messages : List Msg) (g : Int) :
    ∀ b ∈ groupIntoBlocks messages g, ∀ x ∈ b, x ∈ messages := by
  intro b hb x hx
  cases messages with
  | nil => simp [groupIntoBlocks] at hb
  | cons m ms =>
    have := blocksGo_mem g ms m [m] b hb x hx
    simpa using this

theorem enum_snd_mem {α : Type} (l : List α) (p : Nat × α) (h : p ∈ l.enum) :
    p.2 ∈ l := by
  have hmap := List.enum_map_snd l
  rw [← hmap]
  exact List.mem_map_of_mem Prod.snd h

theorem insertBlockDesc_mem (c : Nat × List Msg) :
    ∀ (l : List (Nat × List Msg)) (b : Nat × List Msg),
      b ∈ insertBlockDesc c l → b = c ∨ b ∈ l := by
  intro l
  induction l with
  | nil => intro b hb; simpa [insertBlockDesc] using hb
  | cons d ds ih =>
    intro b hb
    by_cases h : d.2.length ≤ c.2.length
    · simp only [insertBlockDesc, if_pos h, List.mem_cons] at hb ⊢
      tauto
    · simp only [insertBlockDesc, if_neg h, List.mem_cons] at hb
      rcases hb with rfl | hb
      · simp
      · rcases ih b hb with rfl | hb
        · simp
        · simp [hb]

theorem sortBlocksDesc_mem :
    ∀ (l : List (Nat × List Msg)) (b : Nat × List Msg),
      b ∈ sortBlocksDesc l → b ∈ l := by
  intro l
  induction l with
  | nil => intro b hb; simp [sortBlocksDesc] at hb
  | cons c cs ih =>
    intro b hb
    rcases insertBlockDesc_mem c _ b hb with rfl | hb
    · simp
    · simp [ih b hb]

theorem selectLoop_mem (target lastIdx : Nat) (input : List Msg) :
    ∀ (bs : List (Nat × List Msg)) (res : List Msg) (total : Nat),
      (∀ x ∈ res, x ∈ input) → (∀ b ∈ bs, ∀ x ∈ b.2, x ∈ input) →
      ∀ x ∈ selectLoop target lastIdx bs res total, x ∈ input := by
  intro bs
  induction bs with
  | nil =>
    intro res total hres _ x hx
    simp only [selectLoop] at hx
    exact hres x hx
  | cons b bs ih =>
    intro res total hres hbs x hx
    rw [selectLoop] at hx
    by_cases hskip : b.1 = 0 ∨ b.1 = lastIdx
    · simp only [if_pos hskip] at hx
      exact ih res total hres (fun c hc => hbs c (List.mem_cons_of_mem b hc)) x hx
    · simp only [if_neg hskip] at hx
      by_cases hfit : total + b.2.length ≤ target
      · simp only [if_pos hfit] at hx
        refine ih (res ++ b.2) (total + b.2.length) ?_
          (fun c hc => hbs c (List.mem_cons_of_mem b hc)) x hx
        intro y hy
        rcases List.mem_append.mp hy with hy | hy
        · exact hres y hy
        · exact hbs b (List.mem_cons_self b bs) y hy
      · simp only [if_neg hfit] at hx
        by_cases hroom : total < target
        · simp only [if_pos hroom] at hx
          rcases List.mem_append.mp hx with hy | hy
          · exact hres x hy
          · exact hbs b (List.mem_cons_self b bs) x (List.take_subset _ _ hy)
        · simp only [if_neg hroom] at hx
          exact ih res total hres (fun c hc => hbs c (List.mem_cons_of_mem b hc)) x hx

theorem firstSel_mem (blocks : List (Nat × List Msg)) (target : Nat)
    (input : List Msg) (h : ∀ b ∈ blocks, ∀ x ∈ b.2, x ∈ input) :
    ∀ x ∈ (firstSel blocks target).1, x ∈ input := by
  unfold firstSel
  cases hh : blocks.head? with
  | none => simp
  | some fb =>
    have hfb : fb ∈ blocks := List.mem_of_mem_head? (by rw [hh]; rfl)
    by_cases hb : fb.2.length ≤ target
    · simp only [if_pos hb]
      exact h fb hfb
    · simp [hb]

theorem lastSel_mem (blocks : List (Nat × List Msg)) (target : Nat)
    (sel : List Msg × Nat) (input : List Msg)
    (hsel : ∀ x ∈ sel.1, x ∈ input)
    (h : ∀ b ∈ blocks, ∀ x ∈ b.2, x ∈ input) :
    ∀ x ∈ (lastSel blocks target sel).1, x ∈ input := by
  unfold lastSel
  cases hh : blocks.getLast? with
  | none => exact hsel
  | some lb =>
    have hlb : lb ∈ blocks := List.mem_of_getLast?_eq_some hh
    by_cases hb : lb.1 ≠ 0 ∧ sel.2 + lb.2.length ≤ target
    · simp only [if_pos hb]
      intro x hx
      rcases List.mem_append.mp hx with hx | hx
      · exact hsel x hx
      · exact h lb hlb x hx
    · simp only [if_neg hb]
      exact hsel

/-- C7 amended: when the sampler actually samples (input longer than the
target), the returned list is re-sorted into non-decreasing parsed
time-of-day order and draws every message from the input; this equals the
input's original file order only when parsed times are non-decreasing
(counterexample: a midnight rollover reorders the output against file
position). -/
theorem smart_sample_sorted_by_time (dayMessages : List Msg) (targetMsgs : Nat)
    (h : targetMsgs < dayMessages.length) :
    (smartSample dayMessages targetMsgs).Pairwise
        (fun a b => parseTime a ≤ parseTime b) ∧
      ∀ m ∈ smartSample dayMessages targetMsgs, m ∈ dayMessages := by
  have hn : ¬ dayMessages.length ≤ targetMsgs := by omega
  simp only [smartSample, if_neg hn]
  refine ⟨sortByTime_sorted _, ?_⟩
  intro m hm
  rw [sortByTime_mem] at hm
  have hblocks : ∀ b ∈ (groupIntoBlocks dayMessages 5).enum,
      ∀ x ∈ b.2, x ∈ dayMessages := by
    intro b hb x hx
    exact groupIntoBlocks_mem dayMessages 5 b.2 (enum_snd_mem _ b hb) x hx
  have hsorted : ∀ b ∈ sortBlocksDesc ((groupIntoBlocks dayMessages 5).enum),
      ∀ x ∈ b.2, x ∈ dayMessages :=
    fun b hb => hblocks b (sortBlocksDesc_mem _ b hb)
  have hfs := firstSel_mem ((groupIntoBlocks dayMessages 5).enum) targetMsgs
    dayMessages hblocks
  have hls := lastSel_mem ((groupIntoBlocks dayMessages 5).enum) targetMsgs
    (firstSel ((groupIntoBlocks dayMessages 5).enum) targetMsgs) dayMessages hfs hblocks
  exact selectLoop_mem targetMsgs _ dayMessages _ _ _ hls hsorted m hm

/-- Concrete instance of C7 amended, on the rollover counterexample
input. -/
theorem smart_sample_sorted_by_time_witness :
    (smartSample
        [⟨"23:50", "ana", "boa noite", false⟩, ⟨"0:05", "bia", "oi", false⟩,
         ⟨"16:40", "caio", "tarde", false⟩, ⟨"16:41", "caio", "oi de novo", false⟩] 3).Pairwise
        (fun a b => parseTime a ≤ parseTime b) ∧
      ∀ m ∈ smartSample
          [⟨"23:50", "ana", "boa noite", false⟩, ⟨"0:05", "bia", "oi", false⟩,
           ⟨"16:40", "caio", "tarde", false⟩, ⟨"16:41", "caio", "oi de novo", false⟩] 3,
        m ∈ [(⟨"23:50", "ana", "boa noite", false⟩ : Msg), ⟨"0:05", "bia", "oi", false⟩,
             ⟨"16:40", "caio", "tarde", false⟩, ⟨"16:41", "caio", "oi de novo", false⟩] :=
  smart_sample_sorted_by_time
    [⟨"23:50", "ana", "boa noite", false⟩, ⟨"0:05", "bia", "oi", false⟩,
     ⟨"16:40", "caio", "tarde", false⟩, ⟨"16:41", "caio", "oi de novo", false⟩] 3
    (by decide)

end GroupResume
